import Mathlib

/-!
Shallow embedding of the COPOD outlier detector
(`pyod/models/copod.py`) and proofs of the specified properties.

Tables are lists of rows of exact rationals; the `-log` tail transform
and all downstream score arithmetic live in `ℝ` with `Real.log`, so the
model is the real-arithmetic semantics of the floating-point code.
-/

namespace COPOD

/-- A data table: a list of rows, each row a list of rational feature values. -/
abbrev Table := List (List ℚ)

/-- Number of rows, `X.shape[0]`. -/
def nrows (X : Table) : ℕ := X.length

/-- Number of columns, `X.shape[1]`, read off the first row. -/
def dim (X : Table) : ℕ := (X.headD []).length

/-- Entry `X[i][j]`; out-of-range reads default to `0`. -/
def entry (X : Table) (i j : ℕ) : ℚ := (X.getD i []).getD j 0

/-- Column `j` of the table, as passed to `ecdf` by
`np.apply_along_axis(self.ecdf, 0, X)`. -/
def col (X : Table) (j : ℕ) : List ℚ := X.map (fun r => r.getD j 0)

/-- The shape `check_array` guarantees: at least one row and
rectangular rows. -/
def wellFormed (X : Table) : Prop := X ≠ [] ∧ ∀ r ∈ X, r.length = dim X

instance (X : Table) : Decidable (wellFormed X) := by
  unfold wellFormed
  infer_instance

/-- One value of the empirical CDF used by `COPOD.ecdf`:
`statsmodels` `ECDF` has `side='right'`, so `ECDF(x) = count(values ≤ x) / n`
with ties counted inclusively. -/
def ecdfVal (c : List ℚ) (x : ℚ) : ℚ :=
  ((c.countP (fun v => decide (v ≤ x)) : ℕ) : ℚ) / ((c.length : ℕ) : ℚ)

/-- `COPOD.ecdf`: the empirical CDF of a sample evaluated at each point of
that same sample (`ECDF(X)(X)`). -/
def ecdf (c : List ℚ) : List ℚ := c.map (ecdfVal c)

/-- Sample mean of a column. -/
def meanQ (c : List ℚ) : ℚ := c.sum / ((c.length : ℕ) : ℚ)

/-- Biased central moment `m_k = (1/n) * Σ (x - mean)^k`, as used by
`scipy.stats.skew` with its default `bias=True`. -/
def mom (c : List ℚ) (k : ℕ) : ℚ :=
  ((c.map (fun x => (x - meanQ c) ^ k)).sum) / ((c.length : ℕ) : ℚ)

/-- `scipy.stats.skew`: `m3 / m2**1.5`; scipy returns 0 when `m2 = 0`,
which coincides with the `x / 0 = 0` convention of `ℝ` here. -/
noncomputable def skewVal (c : List ℚ) : ℝ :=
  ((mom c 3 : ℚ) : ℝ) / (((mom c 2 : ℚ) : ℝ) ^ ((3 : ℝ) / 2))

/-- `np.sign`: `-1`, `0` or `1` according to the sign of the argument. -/
noncomputable def sgn (x : ℝ) : ℝ := if x < 0 then -1 else if 0 < x then 1 else 0

/-- Per-column skewness sign, `np.sign(np.apply_along_axis(skew, 0, X))`. -/
noncomputable def skewSign (c : List ℚ) : ℝ := sgn (skewVal c)

/-- Left-tail surprise of one value: `-log(ECDF_c(x))`. -/
noncomputable def uLval (c : List ℚ) (x : ℚ) : ℝ := -Real.log ((ecdfVal c x : ℚ) : ℝ)

/-- Right-tail surprise of one value: `-log(ECDF_{-c}(-x))`, the empirical
CDF of the negated column evaluated at the negated value. -/
noncomputable def uRval (c : List ℚ) (x : ℚ) : ℝ :=
  -Real.log ((ecdfVal (c.map (fun v => -v)) (-x) : ℚ) : ℝ)

/-- One entry of `U_skew`:
`U_l * (-1*sign(skewness - 1)) + U_r * sign(skewness + 1)`
where `skewness` is already the sign of the sample skew. -/
noncomputable def uSkewVal (c : List ℚ) (x : ℚ) : ℝ :=
  uLval c x * (-1 * sgn (skewSign c - 1)) + uRval c x * sgn (skewSign c + 1)

/-- One entry of `O`: `np.maximum(U_skew, (U_l + U_r)/2)`. -/
noncomputable def oVal (c : List ℚ) (x : ℚ) : ℝ :=
  max (uSkewVal c x) ((uLval c x + uRval c x) / 2)

/-- Entry `(i, j)` of the matrix `U_l`. -/
noncomputable def uL (X : Table) (i j : ℕ) : ℝ := uLval (col X j) (entry X i j)

/-- Entry `(i, j)` of the matrix `U_r`. -/
noncomputable def uR (X : Table) (i j : ℕ) : ℝ := uRval (col X j) (entry X i j)

/-- Entry `(i, j)` of the matrix `U_skew`. -/
noncomputable def uSkew (X : Table) (i j : ℕ) : ℝ := uSkewVal (col X j) (entry X i j)

/-- Entry `(i, j)` of the matrix `O`. -/
noncomputable def oMat (X : Table) (i j : ℕ) : ℝ := oVal (col X j) (entry X i j)

/-- Materialise an `n × d` matrix of reals as a list of rows. -/
noncomputable def matOf (f : ℕ → ℕ → ℝ) (n d : ℕ) : List (List ℝ) :=
  (List.range n).map (fun i => (List.range d).map (fun j => f i j))

/-- Row `i` of `O.sum(axis=1)`: sum of the outlier contributions of row `i`. -/
noncomputable def rowSum (X : Table) (i : ℕ) : ℝ :=
  ((List.range (dim X)).map (fun j => oMat X i j)).sum

/-- The full vector `O.sum(axis=1)` over a table. -/
noncomputable def scoresOf (X : Table) : List ℝ :=
  (List.range (nrows X)).map (fun i => rowSum X i)

/-- Ascending sort of a real list (what `np.percentile` / `pd.quantile`
do internally before interpolating). -/
noncomputable def sortR (l : List ℝ) : List ℝ := l.insertionSort (fun a b => a ≤ b)

/-- Linear-interpolation quantile at fraction `p` (numpy / pandas default
`linear` method): position `p * (n-1)` in the sorted sample, interpolating
between the two neighbouring order statistics. -/
noncomputable def quantileAt (l : List ℝ) (p : ℝ) : ℝ :=
  let s := sortR l
  let pos : ℝ := p * (((l.length : ℕ) : ℝ) - 1)
  let i : ℕ := ⌊pos⌋₊
  let g : ℝ := pos - (i : ℝ)
  s.getD i 0 + g * (s.getD (i + 1) 0 - s.getD i 0)

/-- `np.percentile(l, q)` with the default linear interpolation. -/
noncomputable def percentile (l : List ℝ) (q : ℝ) : ℝ := quantileAt l (q / 100)

/-- The mutable attributes of a `COPOD` instance.  `X_train = none` models
the absence of the attribute before the first `fit` (the `hasattr` probe). -/
structure State where
  contamination : ℚ
  X_train : Option Table
  U_l : List (List ℝ)
  U_r : List (List ℝ)
  U_skew : List (List ℝ)
  O : List (List ℝ)
  decision_scores : List ℝ
  threshold : ℝ
  labels : List ℝ

/-- A freshly constructed `COPOD(contamination=c)`: no attribute set yet
beyond the contamination. -/
def initState (c : ℚ) : State :=
  { contamination := c
    X_train := none
    U_l := []
    U_r := []
    U_skew := []
    O := []
    decision_scores := []
    threshold := 0
    labels := [] }

/-- `COPOD.decision_function`.  If a training table is stored the input is
concatenated after it and only the scores of the last `original_size` rows
are kept (`[-original_size:]`; note that for `original_size = 0` the Python
slice `[-0:]` is the whole array, modelled by the inner `if`).  Returns the
updated instance state together with the returned score array. -/
noncomputable def decisionFunction (s : State) (X : Table) : State × List ℝ :=
  let combined : Table := match s.X_train with
    | some tr => tr ++ X
    | none => X
  let n := nrows combined
  let d := dim combined
  let Ul := matOf (uL combined) n d
  let Ur := matOf (uR combined) n d
  let Us := matOf (uSkew combined) n d
  let Om := matOf (oMat combined) n d
  let allScores := scoresOf combined
  let ds : List ℝ := match s.X_train with
    | some _ => if X.length = 0 then allScores else allScores.drop (n - X.length)
    | none => allScores
  let thr := percentile ds ((1 - ((s.contamination : ℚ) : ℝ)) * 100)
  let lb := ds.map (fun v => if thr ≤ v then (1 : ℝ) else 0)
  ({ s with
      U_l := Ul
      U_r := Ur
      U_skew := Us
      O := Om
      decision_scores := ds
      threshold := thr
      labels := lb }, ds)

/-- `COPOD.fit`: store the training table first (so the scoring pass inside
sees `X_train` already set and runs over `X ++ X`), then invoke
`decision_function(X)` discarding its return value. -/
noncomputable def fit (s : State) (X : Table) : State :=
  (decisionFunction { s with X_train := some X } X).1

/-- The error raised by an out-of-range `.iloc` access. -/
inductive ExplainErr where
  | indexOutOfRange
deriving DecidableEq

/-- Per-feature quantile row `O.quantile(q=p, axis=0)` across all rows of `O`. -/
noncomputable def colQuantile (O : List (List ℝ)) (p : ℝ) : List ℝ :=
  (List.range ((O.headD []).length)).map
    (fun j => quantileAt (O.map (fun r => r.getD j 0)) p)

/-- `COPOD.explain_outlier` (data path; the matplotlib rendering is a side
effect carrying no data).  Two indexed accesses can raise, in source order:
`self.O.iloc[ind]` (first plot call, and the returned row) follows Python
indexing over the rows of `O` and raises when `ind < -size` or
`ind ≥ size`; then the title computation reads `self.labels_[ind]`, numpy
indexing over the `labels_` array, raising when `ind < -len(labels_)` or
`ind ≥ len(labels_)`.  A negative `ind` accepted by both addresses `O` row
`size + ind`.  No instance attribute is assigned. -/
noncomputable def explainOutlier (s : State) (ind : ℤ) (cutoffs : Option (ℝ × ℝ)) :
    Except ExplainErr (List ℝ × List ℝ × List ℝ) :=
  let cs := cutoffs.getD (1 - ((s.contamination : ℚ) : ℝ), 99 / 100)
  let size : ℤ := ((s.O.length : ℕ) : ℤ)
  let nlab : ℤ := ((s.labels.length : ℕ) : ℤ)
  if ind < -size ∨ size ≤ ind then Except.error ExplainErr.indexOutOfRange
  else if ind < -nlab ∨ nlab ≤ ind then Except.error ExplainErr.indexOutOfRange
  else
    let i : ℕ := (if ind < 0 then ind + size else ind).toNat
    Except.ok (s.O.getD i [], colQuantile s.O cs.1, colQuantile s.O cs.2)

/-! ### Generic list lemmas -/

theorem mapGetD {α β : Type} (l : List α) (d : α) (f : α → β) :
    (List.range l.length).map (fun i => f (l.getD i d)) = l.map f := by
  induction l with
  | nil => simp
  | cons a t ih =>
    rw [List.length_cons, List.range_succ_eq_map, List.map_cons, List.map_map]
    simp only [Function.comp_def, Nat.succ_eq_add_one, List.getD_cons_succ,
      List.getD_cons_zero]
    rw [ih, List.map_cons]

theorem getD_range_map {β : Type} (n : ℕ) (f : ℕ → β) (d : β) {i : ℕ} (h : i < n) :
    ((List.range n).map f).getD i d = f i := by
  have hlen : i < ((List.range n).map f).length := by simpa using h
  rw [List.getD_eq_getElem _ _ hlen, List.getElem_map, List.getElem_range]

/-! ### ECDF facts -/

theorem ecdfVal_perm {c c' : List ℚ} (h : c.Perm c') (x : ℚ) :
    ecdfVal c x = ecdfVal c' x := by
  unfold ecdfVal
  rw [h.countP_eq, h.length_eq]

theorem ecdfVal_append_self (c : List ℚ) (x : ℚ) :
    ecdfVal (c ++ c) x = ecdfVal c x := by
  unfold ecdfVal
  rw [List.countP_append, List.length_append]
  push_cast
  rw [show ((List.countP (fun v => decide (v ≤ x)) c : ℕ) : ℚ) +
        ((List.countP (fun v => decide (v ≤ x)) c : ℕ) : ℚ) =
        2 * ((List.countP (fun v => decide (v ≤ x)) c : ℕ) : ℚ) by ring,
      show ((c.length : ℕ) : ℚ) + ((c.length : ℕ) : ℚ) = 2 * ((c.length : ℕ) : ℚ) by ring]
  exact mul_div_mul_left _ _ (by norm_num)

theorem ecdfVal_mono (c : List ℚ) {x y : ℚ} (hxy : x ≤ y) :
    ecdfVal c x ≤ ecdfVal c y := by
  unfold ecdfVal
  rcases Nat.eq_zero_or_pos c.length with h0 | hpos
  · simp [h0]
  · rw [div_le_div_iff_of_pos_right (by exact_mod_cast hpos)]
    exact_mod_cast List.countP_mono_left (fun v _ hv => by
      simp only [decide_eq_true_eq] at hv ⊢; exact le_trans hv hxy)

theorem ecdfVal_pos {c : List ℚ} {x : ℚ} (hx : x ∈ c) : 0 < ecdfVal c x := by
  unfold ecdfVal
  apply div_pos
  · have : 0 < c.countP (fun v => decide (v ≤ x)) :=
      List.countP_pos_iff.mpr ⟨x, hx, by simp⟩
    exact_mod_cast this
  · exact_mod_cast List.length_pos.mpr (List.ne_nil_of_mem hx)

theorem ecdfVal_le_one (c : List ℚ) (x : ℚ) : ecdfVal c x ≤ 1 := by
  unfold ecdfVal
  rcases Nat.eq_zero_or_pos c.length with h0 | hpos
  · simp [h0]
  · rw [div_le_one (by exact_mod_cast hpos)]
    exact_mod_cast List.countP_le_length _

theorem ecdfVal_top {c : List ℚ} {x : ℚ} (hx : x ∈ c) (hmax : ∀ y ∈ c, y ≤ x) :
    ecdfVal c x = 1 := by
  unfold ecdfVal
  rw [List.countP_eq_length.mpr (fun a ha => by
    simp only [decide_eq_true_eq]; exact hmax a ha)]
  have hn : c.length ≠ 0 := (List.length_pos.mpr (List.ne_nil_of_mem hx)).ne'
  exact div_self (Nat.cast_ne_zero.mpr hn)

/-! ### Column statistics: invariance under permutation and self-append -/

theorem meanQ_perm {c c' : List ℚ} (h : c.Perm c') : meanQ c = meanQ c' := by
  unfold meanQ
  rw [h.sum_eq, h.length_eq]

theorem mom_perm {c c' : List ℚ} (h : c.Perm c') (k : ℕ) : mom c k = mom c' k := by
  unfold mom
  rw [meanQ_perm h, (h.map (fun x => (x - meanQ c') ^ k)).sum_eq, h.length_eq]

theorem meanQ_append_self (c : List ℚ) : meanQ (c ++ c) = meanQ c := by
  unfold meanQ
  rw [List.sum_append, List.length_append]
  push_cast
  rw [show c.sum + c.sum = 2 * c.sum by ring,
      show ((c.length : ℕ) : ℚ) + ((c.length : ℕ) : ℚ) = 2 * ((c.length : ℕ) : ℚ) by ring]
  exact mul_div_mul_left _ _ (by norm_num)

theorem mom_append_self (c : List ℚ) (k : ℕ) : mom (c ++ c) k = mom c k := by
  unfold mom
  rw [meanQ_append_self, List.map_append, List.sum_append, List.length_append]
  push_cast
  rw [show (c.map (fun x => (x - meanQ c) ^ k)).sum +
        (c.map (fun x => (x - meanQ c) ^ k)).sum =
        2 * (c.map (fun x => (x - meanQ c) ^ k)).sum by ring,
      show ((c.length : ℕ) : ℚ) + ((c.length : ℕ) : ℚ) = 2 * ((c.length : ℕ) : ℚ) by ring]
  exact mul_div_mul_left _ _ (by norm_num)

theorem skewSign_perm {c c' : List ℚ} (h : c.Perm c') : skewSign c = skewSign c' := by
  unfold skewSign skewVal
  rw [mom_perm h 2, mom_perm h 3]

theorem skewSign_append_self (c : List ℚ) : skewSign (c ++ c) = skewSign c := by
  unfold skewSign skewVal
  rw [mom_append_self c 2, mom_append_self c 3]

/-! ### Per-entry pipeline values: invariance -/

theorem uLval_perm {c c' : List ℚ} (h : c.Perm c') (x : ℚ) :
    uLval c x = uLval c' x := by
  unfold uLval
  rw [ecdfVal_perm h]

theorem uRval_perm {c c' : List ℚ} (h : c.Perm c') (x : ℚ) :
    uRval c x = uRval c' x := by
  unfold uRval
  rw [ecdfVal_perm (h.map (fun v => -v))]

theorem oVal_perm {c c' : List ℚ} (h : c.Perm c') (x : ℚ) :
    oVal c x = oVal c' x := by
  unfold oVal uSkewVal
  rw [uLval_perm h, uRval_perm h, skewSign_perm h]

theorem uLval_append_self (c : List ℚ) (x : ℚ) :
    uLval (c ++ c) x = uLval c x := by
  unfold uLval
  rw [ecdfVal_append_self]

theorem uRval_append_self (c : List ℚ) (x : ℚ) :
    uRval (c ++ c) x = uRval c x := by
  unfold uRval
  rw [List.map_append, ecdfVal_append_self]

theorem oVal_append_self (c : List ℚ) (x : ℚ) :
    oVal (c ++ c) x = oVal c x := by
  unfold oVal uSkewVal
  rw [uLval_append_self, uRval_append_self, skewSign_append_self]

/-! ### Sign facts -/

theorem sgn_cases (x : ℝ) : sgn x = -1 ∨ sgn x = 0 ∨ sgn x = 1 := by
  unfold sgn
  rcases lt_trichotomy x 0 with h | h | h
  · left; simp [h]
  · right; left; simp [h]
  · right; right; simp [h, not_lt_of_gt h]

theorem entry_mem_col {X : Table} {i : ℕ} (h : i < X.length) (j : ℕ) :
    entry X i j ∈ col X j := by
  unfold entry col
  rw [List.getD_eq_getElem _ _ h]
  exact List.mem_map_of_mem _ (X.getElem_mem h)

/-- C2: for every table and column `j`, with `s_j` the skewness sign of
column `j`, the `U_skew` entries of that column are: `U_r` when `s_j = 1`,
`U_l` when `s_j = -1`, and `U_l + U_r` when `s_j = 0`; these three cases
are exhaustive. -/
theorem skew_combiner_three_way (X : Table) (i j : ℕ) :
    (skewSign (col X j) = 1 ∧ uSkew X i j = uR X i j) ∨
    (skewSign (col X j) = -1 ∧ uSkew X i j = uL X i j) ∨
    (skewSign (col X j) = 0 ∧ uSkew X i j = uL X i j + uR X i j) := by
  have hU : uSkew X i j =
      uL X i j * (-1 * sgn (skewSign (col X j) - 1)) +
      uR X i j * sgn (skewSign (col X j) + 1) := rfl
  rcases sgn_cases (skewVal (col X j)) with h | h | h
  · have hs : skewSign (col X j) = -1 := h
    right; left
    refine ⟨hs, ?_⟩
    rw [hU, hs, show sgn ((-1 : ℝ) - 1) = -1 by unfold sgn; norm_num,
      show sgn ((-1 : ℝ) + 1) = 0 by unfold sgn; norm_num]
    ring
  · have hs : skewSign (col X j) = 0 := h
    right; right
    refine ⟨hs, ?_⟩
    rw [hU, hs, show sgn ((0 : ℝ) - 1) = -1 by unfold sgn; norm_num,
      show sgn ((0 : ℝ) + 1) = 1 by unfold sgn; norm_num]
    ring
  · have hs : skewSign (col X j) = 1 := h
    left
    refine ⟨hs, ?_⟩
    rw [hU, hs, show sgn ((1 : ℝ) - 1) = 0 by unfold sgn; norm_num,
      show sgn ((1 : ℝ) + 1) = 1 by unfold sgn; norm_num]
    ring

/-- C5: for every table, every empirical CDF value the pipeline feeds to
`-log` — both the left-tail one and the right-tail one over the negated
column — lies in `(0, 1]`, so the logarithm is never taken at `0`, and the
corresponding entries of `U_l` and `U_r` are nonnegative. -/
theorem tail_surprise_nonneg (X : Table) {i : ℕ} (j : ℕ) (hi : i < nrows X) :
    (0 < ecdfVal (col X j) (entry X i j) ∧
      ecdfVal (col X j) (entry X i j) ≤ 1) ∧
    (0 < ecdfVal ((col X j).map (fun v => -v)) (-entry X i j) ∧
      ecdfVal ((col X j).map (fun v => -v)) (-entry X i j) ≤ 1) ∧
    0 ≤ uL X i j ∧ 0 ≤ uR X i j := by
  have hmem : entry X i j ∈ col X j := entry_mem_col hi j
  have hmemneg : -entry X i j ∈ (col X j).map (fun v => -v) :=
    List.mem_map_of_mem _ hmem
  have h1 : 0 < ecdfVal (col X j) (entry X i j) := ecdfVal_pos hmem
  have h2 : ecdfVal (col X j) (entry X i j) ≤ 1 := ecdfVal_le_one _ _
  have h3 : 0 < ecdfVal ((col X j).map (fun v => -v)) (-entry X i j) :=
    ecdfVal_pos hmemneg
  have h4 : ecdfVal ((col X j).map (fun v => -v)) (-entry X i j) ≤ 1 :=
    ecdfVal_le_one _ _
  refine ⟨⟨h1, h2⟩, ⟨h3, h4⟩, ?_, ?_⟩
  · show 0 ≤ -Real.log ((ecdfVal (col X j) (entry X i j) : ℚ) : ℝ)
    rw [neg_nonneg]
    exact Real.log_nonpos (by exact_mod_cast h1.le) (by exact_mod_cast h2)
  · show 0 ≤ -Real.log ((ecdfVal ((col X j).map (fun v => -v)) (-entry X i j) : ℚ) : ℝ)
    rw [neg_nonneg]
    exact Real.log_nonpos (by exact_mod_cast h3.le) (by exact_mod_cast h4)

/-- Witness for C5 at the concrete table `[[1], [2]]`, row 0, column 0. -/
theorem tail_surprise_nonneg_witness :
    (0 : ℕ) < nrows [[(1 : ℚ)], [(2 : ℚ)]] ∧
    0 ≤ uL [[(1 : ℚ)], [(2 : ℚ)]] 0 0 ∧ 0 ≤ uR [[(1 : ℚ)], [(2 : ℚ)]] 0 0 :=
  ⟨by decide, (tail_surprise_nonneg [[(1 : ℚ)], [(2 : ℚ)]] 0 (by decide)).2.2⟩

/-- C7: `ecdf` maps each of the `n` sample values `x` to
`count(values ≤ x) / n` (ties inclusive), producing one value per input;
on a strictly increasing column the output is monotonically non-decreasing,
and at a maximal sample value the ECDF is exactly 1. -/
theorem ecdf_contract (c : List ℚ) :
    ecdf c = c.map (fun x =>
      ((c.countP (fun v => decide (v ≤ x)) : ℕ) : ℚ) / ((c.length : ℕ) : ℚ)) ∧
    (ecdf c).length = c.length ∧
    (List.Sorted (fun a b : ℚ => a < b) c →
      List.Sorted (fun a b : ℚ => a ≤ b) (ecdf c)) ∧
    (∀ x ∈ c, (∀ y ∈ c, y ≤ x) → ecdfVal c x = 1) := by
  refine ⟨rfl, by simp [ecdf], ?_, fun x hx hmax => ecdfVal_top hx hmax⟩
  intro hsort
  exact List.Pairwise.map (ecdfVal c)
    (fun a b hab => ecdfVal_mono c hab.le) hsort

/-- Witness for C7 at the concrete strictly increasing column `[1, 2, 3]`. -/
theorem ecdf_contract_witness :
    List.Sorted (fun a b : ℚ => a < b) [1, 2, 3] ∧
    List.Sorted (fun a b : ℚ => a ≤ b) (ecdf [1, 2, 3]) ∧
    ecdfVal [1, 2, 3] 3 = 1 :=
  ⟨by decide,
    (ecdf_contract [1, 2, 3]).2.2.1 (by decide),
    (ecdf_contract [1, 2, 3]).2.2.2 3 (by decide) (by decide)⟩

/-! ### Structure of the pipeline over a concatenated table -/

theorem col_append (X Y : Table) (j : ℕ) :
    col (X ++ Y) j = col X j ++ col Y j := by
  unfold col
  exact List.map_append _ _ _

theorem dim_append_self (X : Table) : dim (X ++ X) = dim X := by
  cases X <;> rfl

theorem entry_append_left (X Y : Table) {i : ℕ} (j : ℕ) (h : i < X.length) :
    entry (X ++ Y) i j = entry X i j := by
  unfold entry
  rw [List.getD_append _ _ _ _ h]

theorem entry_append_right (X Y : Table) {i : ℕ} (j : ℕ) (h : X.length ≤ i) :
    entry (X ++ Y) i j = entry Y (i - X.length) j := by
  unfold entry
  rw [List.getD_append_right _ _ _ _ h]

theorem oMat_append_self_left (T : Table) {i : ℕ} (j : ℕ) (hi : i < T.length) :
    oMat (T ++ T) i j = oMat T i j := by
  unfold oMat
  rw [col_append, oVal_append_self, entry_append_left _ _ _ hi]

theorem oMat_append_self_right (T : Table) (i j : ℕ) :
    oMat (T ++ T) (T.length + i) j = oMat T i j := by
  unfold oMat
  rw [col_append, oVal_append_self,
    entry_append_right _ _ _ (Nat.le_add_right _ _), Nat.add_sub_cancel_left]

theorem rowSum_append_self (T : Table) (i : ℕ) :
    rowSum (T ++ T) (T.length + i) = rowSum T i := by
  unfold rowSum
  rw [dim_append_self]
  congr 1
  exact List.map_congr_left (fun j _ => oMat_append_self_right T i j)

theorem scoresOf_append_self_drop (T : Table) :
    (scoresOf (T ++ T)).drop T.length = scoresOf T := by
  unfold scoresOf nrows
  rw [List.length_append, List.range_add, List.map_append]
  rw [List.drop_left' (by simp), List.map_map]
  exact List.map_congr_left (fun i _ => rowSum_append_self T i)

/-- C1: on a freshly constructed, never-fitted detector, `decision_function(T)`
returns the same score array that `fit(T)` stores in `decision_scores_`,
although the `fit` pass scores the concatenation of `T` with itself and
keeps only the last `len T` scores. -/
theorem score_unfitted_eq_fit_scores (c : ℚ) (T : Table) :
    (decisionFunction (initState c) T).2 = (fit (initState c) T).decision_scores ∧
    (decisionFunction (initState c) T).2.length = T.length := by
  refine ⟨?_, by
    show (scoresOf T).length = T.length
    unfold scoresOf nrows
    simp⟩
  show scoresOf T = (if T.length = 0 then scoresOf (T ++ T)
    else (scoresOf (T ++ T)).drop (nrows (T ++ T) - T.length))
  by_cases hT : T.length = 0
  · rw [if_pos hT, List.length_eq_zero.mp hT]
    rfl
  · rw [if_neg hT]
    have hn : nrows (T ++ T) - T.length = T.length := by
      unfold nrows
      rw [List.length_append, Nat.add_sub_cancel]
    rw [hn, scoresOf_append_self_drop]

/-- C3: with a training reference `tr` of `m` rows stored, scoring a
nonempty query table `T` of `k` rows computes all four matrices over the
concatenated `(m+k)`-row table `tr ++ T` and returns the row sums of `O`
for the last `k` rows only, dropping the first `m` scores. -/
theorem decision_function_fitted (s : State) (T tr : Table)
    (htr : s.X_train = some tr) (hT : T ≠ []) :
    (decisionFunction s T).2 = (scoresOf (tr ++ T)).drop tr.length ∧
    (decisionFunction s T).1.U_l = matOf (uL (tr ++ T)) (nrows (tr ++ T)) (dim (tr ++ T)) ∧
    (decisionFunction s T).1.U_r = matOf (uR (tr ++ T)) (nrows (tr ++ T)) (dim (tr ++ T)) ∧
    (decisionFunction s T).1.U_skew = matOf (uSkew (tr ++ T)) (nrows (tr ++ T)) (dim (tr ++ T)) ∧
    (decisionFunction s T).1.O = matOf (oMat (tr ++ T)) (nrows (tr ++ T)) (dim (tr ++ T)) ∧
    (decisionFunction s T).1.decision_scores = (scoresOf (tr ++ T)).drop tr.length ∧
    (decisionFunction s T).2.length = T.length := by
  have hk : T.length ≠ 0 := fun h => hT (List.length_eq_zero.mp h)
  have hdrop : nrows (tr ++ T) - T.length = tr.length := by
    unfold nrows
    rw [List.length_append, Nat.add_sub_cancel]
  unfold decisionFunction
  rw [htr]
  simp only [if_neg hk, hdrop]
  and_intros <;> try trivial
  have hlen : (scoresOf (tr ++ T)).length = tr.length + T.length := by
    unfold scoresOf nrows
    rw [List.length_map, List.length_range, List.length_append]
  rw [List.length_drop, hlen, Nat.add_sub_cancel_left]

/-- Witness for C3: a detector fitted on the training row `[0]`, queried
with the single row `[1]`. -/
theorem decision_function_fitted_witness :
    (fit (initState (1/10)) [[(0 : ℚ)]]).X_train = some [[(0 : ℚ)]] ∧
    ([[(1 : ℚ)]] : Table) ≠ [] ∧
    (decisionFunction (fit (initState (1/10)) [[(0 : ℚ)]]) [[(1 : ℚ)]]).2 =
      (scoresOf ([[(0 : ℚ)]] ++ [[(1 : ℚ)]])).drop 1 :=
  ⟨rfl, by decide,
    (decision_function_fitted _ [[(1 : ℚ)]] [[(0 : ℚ)]] rfl (by decide)).1⟩

theorem getD_map_lt {α β : Type} (f : α → β) (l : List α) (d : β) (e : α) {i : ℕ}
    (h : i < l.length) : (l.map f).getD i d = f (l.getD i e) := by
  rw [List.getD_eq_getElem _ _ (by simpa using h), List.getElem_map,
    List.getD_eq_getElem _ _ h]

theorem decisionFunction_threshold_eq (s : State) (T : Table) :
    (decisionFunction s T).1.threshold =
      percentile (decisionFunction s T).1.decision_scores
        ((1 - ((s.contamination : ℚ) : ℝ)) * 100) := rfl

theorem decisionFunction_labels_eq (s : State) (T : Table) :
    (decisionFunction s T).1.labels =
      (decisionFunction s T).1.decision_scores.map
        (fun v => if (decisionFunction s T).1.threshold ≤ v then (1 : ℝ) else 0) := rfl

theorem decisionFunction_scores_length (s : State) (T : Table) (hT : T ≠ []) :
    (decisionFunction s T).1.decision_scores.length = T.length := by
  obtain ⟨c0, xt, ul, ur, us, o, dsc, th, lb⟩ := s
  cases xt with
  | none =>
    show (scoresOf T).length = T.length
    unfold scoresOf nrows
    simp
  | some tr =>
    have hk : T.length ≠ 0 := fun h => hT (List.length_eq_zero.mp h)
    show (if T.length = 0 then scoresOf (tr ++ T)
        else (scoresOf (tr ++ T)).drop (nrows (tr ++ T) - T.length)).length = T.length
    rw [if_neg hk]
    have hlen : (scoresOf (tr ++ T)).length = tr.length + T.length := by
      unfold scoresOf nrows
      rw [List.length_map, List.length_range, List.length_append]
    have hdrop : nrows (tr ++ T) - T.length = tr.length := by
      unfold nrows
      rw [List.length_append, Nat.add_sub_cancel]
    rw [List.length_drop, hdrop, hlen, Nat.add_sub_cancel_left]

theorem fit_scores_length (s : State) (T : Table) :
    (fit s T).decision_scores.length = T.length := by
  by_cases hT : T = []
  · subst hT
    rfl
  · exact decisionFunction_scores_length { s with X_train := some T } T hT

theorem fit_labels_length (s : State) (T : Table) :
    (fit s T).labels.length = T.length := by
  have h : (fit s T).labels.length = (fit s T).decision_scores.length := by
    unfold fit
    rw [decisionFunction_labels_eq, List.length_map]
  rw [h, fit_scores_length]

/-- C4: after a call to `decision_function` (and hence after `fit`, which
delegates to it), `threshold_` is the linear-interpolation
`(1 - contamination) * 100`-th percentile of the freshly stored
`decision_scores_`, and every label is 1 exactly when the corresponding
score is at least the threshold, 0 otherwise. -/
theorem threshold_and_labels (s : State) (T : Table) (hT : T ≠ []) :
    ((decisionFunction s T).1.threshold =
        percentile (decisionFunction s T).1.decision_scores
          ((1 - ((s.contamination : ℚ) : ℝ)) * 100) ∧
      (decisionFunction s T).1.labels.length =
        (decisionFunction s T).1.decision_scores.length ∧
      ∀ i, i < (decisionFunction s T).1.decision_scores.length →
        (decisionFunction s T).1.labels.getD i 0 =
          if (decisionFunction s T).1.threshold ≤
              (decisionFunction s T).1.decision_scores.getD i 0 then 1 else 0) ∧
    ((fit s T).threshold =
        percentile (fit s T).decision_scores
          ((1 - ((s.contamination : ℚ) : ℝ)) * 100) ∧
      (fit s T).labels.length = (fit s T).decision_scores.length ∧
      ∀ i, i < (fit s T).decision_scores.length →
        (fit s T).labels.getD i 0 =
          if (fit s T).threshold ≤ (fit s T).decision_scores.getD i 0
          then 1 else 0) := by
  constructor
  · refine ⟨decisionFunction_threshold_eq s T, ?_, ?_⟩
    · rw [decisionFunction_labels_eq, List.length_map]
    · intro i hi
      rw [decisionFunction_labels_eq, getD_map_lt _ _ _ 0 hi]
  · unfold fit
    refine ⟨decisionFunction_threshold_eq _ T, ?_, ?_⟩
    · rw [decisionFunction_labels_eq, List.length_map]
    · intro i hi
      rw [decisionFunction_labels_eq, getD_map_lt _ _ _ 0 hi]

/-- Witness for C4: a freshly constructed detector fitted on `[[0]]`. -/
theorem threshold_and_labels_witness :
    ([[(0 : ℚ)]] : Table) ≠ [] ∧
    (fit (initState (1/10)) [[(0 : ℚ)]]).threshold =
      percentile (fit (initState (1/10)) [[(0 : ℚ)]]).decision_scores
        ((1 - (((initState (1/10)).contamination : ℚ) : ℝ)) * 100) :=
  ⟨by decide, (threshold_and_labels (initState (1/10)) [[(0 : ℚ)]] (by decide)).2.1⟩

/-- C9 amended: after `fit` on an `n`-row table, the stored `U_l`, `U_r`,
`U_skew` and `O` all have `2n` rows (each training row scored twice: row
`i` of `O` equals row `n + i`), and the quantile reference rows of an
accepted `explain_outlier` call are computed over that `2n`-row stored `O`;
but `labels_` has only `n` entries, so of the nonnegative indices
`explain_outlier` accepts exactly `[0, n)` — every index in `[n, 2n)`
raises IndexOutOfRangeError at the `labels_[ind]` lookup even though it is
a valid row of `O`. -/
theorem fit_stores_doubled_matrices (s : State) (T : Table) :
    (fit s T).U_l.length = 2 * T.length ∧
    (fit s T).U_r.length = 2 * T.length ∧
    (fit s T).U_skew.length = 2 * T.length ∧
    (fit s T).O.length = 2 * T.length ∧
    (fit s T).labels.length = T.length ∧
    (∀ i, i < T.length →
      (fit s T).O.getD i [] = (fit s T).O.getD (T.length + i) []) ∧
    (∀ ind : ℤ, 0 ≤ ind → ind < (T.length : ℤ) →
      explainOutlier (fit s T) ind none =
        Except.ok ((fit s T).O.getD ind.toNat [],
          colQuantile (fit s T).O (1 - ((s.contamination : ℚ) : ℝ)),
          colQuantile (fit s T).O (99 / 100))) ∧
    (∀ ind : ℤ, (T.length : ℤ) ≤ ind → ind < 2 * (T.length : ℤ) →
      explainOutlier (fit s T) ind none =
        Except.error ExplainErr.indexOutOfRange) := by
  have hO : (fit s T).O = matOf (oMat (T ++ T)) (nrows (T ++ T)) (dim (T ++ T)) := rfl
  have hn2 : nrows (T ++ T) = 2 * T.length := by
    unfold nrows
    rw [List.length_append, two_mul]
  have hOlen : (fit s T).O.length = 2 * T.length := by
    rw [hO]
    unfold matOf
    rw [List.length_map, List.length_range, hn2]
  have hsize : (((fit s T).O.length : ℕ) : ℤ) = 2 * (T.length : ℤ) := by
    rw [hOlen]
    push_cast
    ring
  have hlab : (((fit s T).labels.length : ℕ) : ℤ) = (T.length : ℤ) := by
    rw [fit_labels_length]
  have htn : (0 : ℤ) ≤ (T.length : ℤ) := Int.natCast_nonneg T.length
  refine ⟨?_, ?_, ?_, hOlen, fit_labels_length s T, ?_, ?_, ?_⟩
  · show (matOf (uL (T ++ T)) (nrows (T ++ T)) (dim (T ++ T))).length = 2 * T.length
    unfold matOf
    rw [List.length_map, List.length_range, hn2]
  · show (matOf (uR (T ++ T)) (nrows (T ++ T)) (dim (T ++ T))).length = 2 * T.length
    unfold matOf
    rw [List.length_map, List.length_range, hn2]
  · show (matOf (uSkew (T ++ T)) (nrows (T ++ T)) (dim (T ++ T))).length = 2 * T.length
    unfold matOf
    rw [List.length_map, List.length_range, hn2]
  · intro i hi
    rw [hO]
    unfold matOf
    rw [getD_range_map _ _ _ (by rw [hn2]; omega),
      getD_range_map _ _ _ (by rw [hn2]; omega)]
    refine List.map_congr_left (fun j _ => ?_)
    rw [oMat_append_self_left T j hi, oMat_append_self_right T i j]
  · intro ind h0 hlt
    unfold explainOutlier
    simp only [hsize, hlab]
    rw [if_neg (by push_neg; exact ⟨by linarith, by linarith⟩),
      if_neg (by push_neg; exact ⟨by linarith, hlt⟩), if_neg (not_lt.mpr h0)]
    rfl
  · intro ind hge hlt
    unfold explainOutlier
    simp only [hsize, hlab]
    rw [if_neg (by push_neg; exact ⟨by linarith, hlt⟩), if_pos (Or.inr hge)]

/-- Witness for C9: fitting on the single row `[0]` yields a 2-row `O`
whose rows coincide and 1-entry labels; index 0 is accepted by
`explain_outlier` while index 1 raises. -/
theorem fit_stores_doubled_matrices_witness :
    (fit (initState (1/10)) [[(0 : ℚ)]]).O.length = 2 * 1 ∧
    (fit (initState (1/10)) [[(0 : ℚ)]]).labels.length = 1 ∧
    (fit (initState (1/10)) [[(0 : ℚ)]]).O.getD 0 [] =
      (fit (initState (1/10)) [[(0 : ℚ)]]).O.getD 1 [] ∧
    explainOutlier (fit (initState (1/10)) [[(0 : ℚ)]]) 0 none =
      Except.ok ((fit (initState (1/10)) [[(0 : ℚ)]]).O.getD (0 : ℤ).toNat [],
        colQuantile (fit (initState (1/10)) [[(0 : ℚ)]]).O
          (1 - (((initState (1/10)).contamination : ℚ) : ℝ)),
        colQuantile (fit (initState (1/10)) [[(0 : ℚ)]]).O (99 / 100)) ∧
    explainOutlier (fit (initState (1/10)) [[(0 : ℚ)]]) 1 none =
      Except.error ExplainErr.indexOutOfRange := by
  refine ⟨(fit_stores_doubled_matrices (initState (1/10)) [[(0 : ℚ)]]).2.2.2.1,
    (fit_stores_doubled_matrices (initState (1/10)) [[(0 : ℚ)]]).2.2.2.2.1,
    ?_, ?_, ?_⟩
  · exact (fit_stores_doubled_matrices (initState (1/10))
      [[(0 : ℚ)]]).2.2.2.2.2.1 0 (by decide)
  · exact (fit_stores_doubled_matrices (initState (1/10))
      [[(0 : ℚ)]]).2.2.2.2.2.2.1 0 (by decide) (by decide)
  · exact (fit_stores_doubled_matrices (initState (1/10))
      [[(0 : ℚ)]]).2.2.2.2.2.2.2 1 (by decide) (by decide)

/-! ### Row-permutation invariance -/

/-- C6: scoring a row-permuted well-formed table on an unfitted detector
permutes the scores the same way: the permuted table's score vector is the
permutation applied to the original score vector, because each row's score
depends only on its own values and the column multisets. -/
theorem scores_row_permutation (T : Table) (p : List ℕ)
    (hp : p.Perm (List.range T.length)) (hw : wellFormed T) :
    scoresOf (p.map (fun i => T.getD i [])) =
      p.map (fun i => (scoresOf T).getD i 0) := by
  obtain ⟨hne, hrect⟩ := hw
  have hlenp : p.length = T.length := by
    have := hp.length_eq
    simpa using this
  have hmemp : ∀ i ∈ p, i < T.length := fun i hi => by
    have : i ∈ List.range T.length := hp.subset hi
    simpa using this
  set f : ℕ → List ℚ := fun i => T.getD i [] with hf
  have hrange : (List.range T.length).map f = T := by
    have h1 := mapGetD T [] (fun r => r)
    have h2 : T.map (fun r => r) = T := by simp
    exact h1.trans h2
  have hperm : (p.map f).Perm T := hrange ▸ hp.map f
  have hd : dim (p.map f) = dim T := by
    cases hpm : p.map f with
    | nil =>
      exfalso
      have hlen0 : T.length = 0 := by
        have := hperm.length_eq
        rw [hpm] at this
        simpa using this.symm
      exact hne (List.length_eq_zero.mp hlen0)
    | cons r rest =>
      have hrmem : r ∈ T := hperm.mem_iff.mp (by rw [hpm]; exact List.mem_cons_self r rest)
      show (((r :: rest).headD []).length) = dim T
      simpa using hrect r hrmem
  have hcol : ∀ j, (col (p.map f) j).Perm (col T j) := fun j => by
    unfold col
    exact hperm.map (fun r : List ℚ => r.getD j 0)
  have hrow : ∀ i, i < T.length → rowSum (p.map f) i = rowSum T (p.getD i 0) := by
    intro i hi
    unfold rowSum
    rw [hd]
    congr 1
    refine List.map_congr_left (fun j _ => ?_)
    unfold oMat
    rw [oVal_perm (hcol j)]
    congr 1
    unfold entry
    rw [getD_map_lt f p [] 0 (by rw [hlenp]; exact hi)]
  have hRHS : p.map (fun i => (scoresOf T).getD i 0) = p.map (fun i => rowSum T i) :=
    List.map_congr_left (fun i hi => by
      unfold scoresOf nrows
      exact getD_range_map _ _ _ (hmemp i hi))
  rw [hRHS, ← mapGetD p 0 (fun k => rowSum T k)]
  unfold scoresOf nrows
  rw [List.length_map]
  exact List.map_congr_left (fun i hi => hrow i (by
    rw [← hlenp]
    simpa using hi))

/-- Witness for C6: swapping the two rows of `[[1], [2]]` swaps the two
scores. -/
theorem scores_row_permutation_witness :
    ([1, 0] : List ℕ).Perm (List.range ([[(1 : ℚ)], [(2 : ℚ)]] : Table).length) ∧
    wellFormed [[(1 : ℚ)], [(2 : ℚ)]] ∧
    scoresOf (([1, 0] : List ℕ).map (fun i => ([[(1 : ℚ)], [(2 : ℚ)]] : Table).getD i [])) =
      ([1, 0] : List ℕ).map (fun i => (scoresOf [[(1 : ℚ)], [(2 : ℚ)]]).getD i 0) :=
  ⟨by decide, by decide,
    scores_row_permutation [[(1 : ℚ)], [(2 : ℚ)]] [1, 0] (by decide) (by decide)⟩

/-! ### Percentile bounds and labels -/

theorem sorted_sortR (l : List ℝ) :
    List.Sorted (fun a b : ℝ => a ≤ b) (sortR l) := by
  unfold sortR
  exact List.sorted_insertionSort _ l

theorem perm_sortR (l : List ℝ) : (sortR l).Perm l := List.perm_insertionSort _ l

theorem sorted_getD_le {l : List ℝ} (hs : List.Sorted (fun a b : ℝ => a ≤ b) l)
    {i j : ℕ} (hij : i ≤ j) (hj : j < l.length) : l.getD i 0 ≤ l.getD j 0 := by
  rcases Nat.lt_or_ge i j with h | h
  · rw [List.getD_eq_get _ _ (lt_trans h hj), List.getD_eq_get _ _ hj]
    exact hs.rel_get_of_lt (Fin.mk_lt_mk.mpr h)
  · have hij2 : i = j := le_antisymm hij h
    subst hij2
    exact le_refl _

theorem percentile_le_sorted_last (l : List ℝ) (q : ℝ) (hne : l ≠ [])
    (h0 : 0 ≤ q) (h100 : q < 100) :
    percentile l q ≤ (sortR l).getD (l.length - 1) 0 := by
  have hn : 0 < l.length := List.length_pos.mpr hne
  have hslen : (sortR l).length = l.length := (perm_sortR l).length_eq
  have hs := sorted_sortR l
  have hcast1 : (1 : ℝ) ≤ (l.length : ℝ) := by exact_mod_cast hn
  simp only [percentile, quantileAt]
  set P : ℝ := q / 100 * ((l.length : ℝ) - 1) with hPdef
  have hP0 : 0 ≤ P := by
    apply mul_nonneg (div_nonneg h0 (by norm_num))
    linarith
  have hk_le : ((⌊P⌋₊ : ℕ) : ℝ) ≤ P := Nat.floor_le hP0
  have hg1 : P < (⌊P⌋₊ : ℝ) + 1 := Nat.lt_floor_add_one P
  rcases Nat.lt_or_ge l.length 2 with h1 | h2
  · have hlen1 : l.length = 1 := by omega
    have hPz : P = 0 := by
      rw [hPdef, hlen1]
      norm_num
    rw [hPz, hlen1]
    norm_num
  · have hq1 : q / 100 < 1 := (div_lt_one (by norm_num)).mpr h100
    have hpos1 : (0 : ℝ) < (l.length : ℝ) - 1 := by
      have : (2 : ℝ) ≤ (l.length : ℝ) := by exact_mod_cast h2
      linarith
    have hPlt : P < (l.length : ℝ) - 1 := by
      rw [hPdef]
      calc q / 100 * ((l.length : ℝ) - 1) < 1 * ((l.length : ℝ) - 1) :=
        mul_lt_mul_of_pos_right hq1 hpos1
      _ = (l.length : ℝ) - 1 := one_mul _
    have hklt : ⌊P⌋₊ < l.length - 1 := by
      rw [Nat.floor_lt hP0]
      rw [Nat.cast_sub hn]
      exact_mod_cast hPlt
    have hjlt : l.length - 1 < (sortR l).length := by
      rw [hslen]
      omega
    have ha : (sortR l).getD ⌊P⌋₊ 0 ≤ (sortR l).getD (l.length - 1) 0 :=
      sorted_getD_le hs (by omega) hjlt
    have hb : (sortR l).getD (⌊P⌋₊ + 1) 0 ≤ (sortR l).getD (l.length - 1) 0 :=
      sorted_getD_le hs (by omega) hjlt
    set a := (sortR l).getD ⌊P⌋₊ 0
    set b := (sortR l).getD (⌊P⌋₊ + 1) 0
    set M := (sortR l).getD (l.length - 1) 0
    have hg0 : 0 ≤ P - (⌊P⌋₊ : ℝ) := by linarith
    have hgl : P - (⌊P⌋₊ : ℝ) < 1 := by linarith
    have hx1 : (1 - (P - (⌊P⌋₊ : ℝ))) * a ≤ (1 - (P - (⌊P⌋₊ : ℝ))) * M :=
      mul_le_mul_of_nonneg_left ha (by linarith)
    have hx2 : (P - (⌊P⌋₊ : ℝ)) * b ≤ (P - (⌊P⌋₊ : ℝ)) * M :=
      mul_le_mul_of_nonneg_left hb hg0
    nlinarith [hx1, hx2]

theorem exists_label_one (ds : List ℝ) (q : ℝ) (hne : ds ≠ [])
    (h0 : 0 ≤ q) (h100 : q < 100) :
    ∃ i, i < ds.length ∧
      (ds.map (fun v => if percentile ds q ≤ v then (1 : ℝ) else 0)).getD i 0 = 1 := by
  have hn : 0 < ds.length := List.length_pos.mpr hne
  have hperm := perm_sortR ds
  have hslen : (sortR ds).length = ds.length := hperm.length_eq
  have hMmem : (sortR ds).getD (ds.length - 1) 0 ∈ sortR ds := by
    rw [List.getD_eq_getElem _ _ (by omega)]
    exact List.getElem_mem _
  have hMds : (sortR ds).getD (ds.length - 1) 0 ∈ ds := hperm.mem_iff.mp hMmem
  obtain ⟨⟨i, hi⟩, hgi⟩ := List.mem_iff_get.mp hMds
  refine ⟨i, hi, ?_⟩
  rw [getD_map_lt _ _ _ 0 hi, List.getD_eq_get _ _ hi, hgi,
    if_pos (percentile_le_sorted_last ds q hne h0 h100)]

/-- C10: after any successful `fit` or `decision_function` call on a table
with at least one row, with a valid contamination in `(0, 1/2]`, at least
one sample is labeled 1 — the linear interpolation percentile never exceeds
the maximum decision score, and labeling uses `score ≥ threshold`. -/
theorem always_some_outlier (s : State) (T : Table) (hT : T ≠ [])
    (hc0 : 0 < s.contamination) (hc1 : s.contamination ≤ 1 / 2) :
    (∃ i, i < (decisionFunction s T).1.labels.length ∧
      (decisionFunction s T).1.labels.getD i 0 = 1) ∧
    (∃ i, i < (fit s T).labels.length ∧ (fit s T).labels.getD i 0 = 1) := by
  have key : ∀ s' : State, s'.contamination = s.contamination →
      ∃ i, i < (decisionFunction s' T).1.labels.length ∧
        (decisionFunction s' T).1.labels.getD i 0 = 1 := by
    intro s' hcc
    have hcR0 : (0 : ℝ) < ((s.contamination : ℚ) : ℝ) := by exact_mod_cast hc0
    have hcR1 : ((s.contamination : ℚ) : ℝ) ≤ 1 / 2 := by
      calc ((s.contamination : ℚ) : ℝ) ≤ ((1 / 2 : ℚ) : ℝ) := by exact_mod_cast hc1
      _ = 1 / 2 := by norm_num
    have hne : (decisionFunction s' T).1.decision_scores ≠ [] := by
      intro hnil
      have := decisionFunction_scores_length s' T hT
      rw [hnil] at this
      exact hT (List.length_eq_zero.mp (by simpa using this.symm))
    obtain ⟨i, hi, hlab⟩ := exists_label_one
      ((decisionFunction s' T).1.decision_scores)
      ((1 - ((s'.contamination : ℚ) : ℝ)) * 100) hne
      (by rw [hcc]; linarith) (by rw [hcc]; linarith)
    refine ⟨i, ?_, ?_⟩
    · rw [decisionFunction_labels_eq, List.length_map]
      exact hi
    · rw [decisionFunction_labels_eq, decisionFunction_threshold_eq]
      exact hlab
  refine ⟨key s rfl, ?_⟩
  show ∃ i, i < (decisionFunction { s with X_train := some T } T).1.labels.length ∧
    (decisionFunction { s with X_train := some T } T).1.labels.getD i 0 = 1
  exact key { s with X_train := some T } rfl

/-- Witness for C10: fitting `[[0], [7]]` with contamination `1/10` labels
some sample 1. -/
theorem always_some_outlier_witness :
    ([[(0 : ℚ)], [(7 : ℚ)]] : Table) ≠ [] ∧
    (0 : ℚ) < (initState (1/10)).contamination ∧
    (initState (1/10)).contamination ≤ 1 / 2 ∧
    ∃ i, i < (fit (initState (1/10)) [[(0 : ℚ)], [(7 : ℚ)]]).labels.length ∧
      (fit (initState (1/10)) [[(0 : ℚ)], [(7 : ℚ)]]).labels.getD i 0 = 1 :=
  ⟨by decide, by norm_num [initState], by norm_num [initState],
    (always_some_outlier (initState (1/10)) [[(0 : ℚ)], [(7 : ℚ)]]
      (by decide) (by norm_num [initState]) (by norm_num [initState])).2⟩

/-! ### The explain operation and index handling -/

/-- C8 amended: `explain_outlier` raises IndexOutOfRangeError exactly when
the index is outside `[-size, size)` for the rows of the last computed `O`
(the `iloc` accesses) or outside `[-L, L)` for the current `labels_` array
of length `L` (the title's `labels_[ind]` lookup); an index accepted by
both, when negative, returns the data of `O` row `size + ind`; the
operation assigns no instance attribute, so state is always left
unchanged. -/
theorem explain_outlier_range (s : State) (ind : ℤ) (co : Option (ℝ × ℝ)) :
    (explainOutlier s ind co = Except.error ExplainErr.indexOutOfRange ↔
      (ind < -((s.O.length : ℕ) : ℤ) ∨ ((s.O.length : ℕ) : ℤ) ≤ ind) ∨
      (ind < -((s.labels.length : ℕ) : ℤ) ∨ ((s.labels.length : ℕ) : ℤ) ≤ ind)) ∧
    (ind < 0 → -((s.O.length : ℕ) : ℤ) ≤ ind →
      -((s.labels.length : ℕ) : ℤ) ≤ ind →
      explainOutlier s ind co =
        Except.ok (s.O.getD (ind + ((s.O.length : ℕ) : ℤ)).toNat [],
          colQuantile s.O (co.getD (1 - ((s.contamination : ℚ) : ℝ), 99 / 100)).1,
          colQuantile s.O (co.getD (1 - ((s.contamination : ℚ) : ℝ), 99 / 100)).2)) := by
  constructor
  · by_cases hc1 : ind < -((s.O.length : ℕ) : ℤ) ∨ ((s.O.length : ℕ) : ℤ) ≤ ind
    · refine ⟨fun _ => Or.inl hc1, fun _ => ?_⟩
      unfold explainOutlier
      rw [if_pos hc1]
    · by_cases hc2 : ind < -((s.labels.length : ℕ) : ℤ) ∨
          ((s.labels.length : ℕ) : ℤ) ≤ ind
      · refine ⟨fun _ => Or.inr hc2, fun _ => ?_⟩
        unfold explainOutlier
        rw [if_neg hc1, if_pos hc2]
      · refine ⟨fun h => ?_, fun h => absurd h (by
          push_neg
          push_neg at hc1 hc2
          exact ⟨⟨hc1.1, hc1.2⟩, hc2.1, hc2.2⟩)⟩
        exfalso
        unfold explainOutlier at h
        rw [if_neg hc1, if_neg hc2] at h
        exact Except.noConfusion h
  · intro hneg hgeO hgeL
    have hc1 : ¬(ind < -((s.O.length : ℕ) : ℤ) ∨ ((s.O.length : ℕ) : ℤ) ≤ ind) := by
      push_neg
      exact ⟨hgeO, lt_of_lt_of_le hneg (by positivity)⟩
    have hc2 : ¬(ind < -((s.labels.length : ℕ) : ℤ) ∨
        ((s.labels.length : ℕ) : ℤ) ≤ ind) := by
      push_neg
      exact ⟨hgeL, lt_of_lt_of_le hneg (by positivity)⟩
    unfold explainOutlier
    rw [if_neg hc1, if_neg hc2, if_pos hneg]

/-- Witness for the amended C8: on a detector fitted on `[[0]]`
(`O` has 2 rows, `labels_` one entry), the negative index `-1` lies in
both ranges and returns the data of row `2 + (-1) = 1`. -/
theorem explain_outlier_range_witness :
    ((-1 : ℤ) < 0) ∧
    (-(((fit (initState (1/10)) [[(0 : ℚ)]]).O.length : ℕ) : ℤ) ≤ -1) ∧
    (-(((fit (initState (1/10)) [[(0 : ℚ)]]).labels.length : ℕ) : ℤ) ≤ -1) ∧
    explainOutlier (fit (initState (1/10)) [[(0 : ℚ)]]) (-1) none =
      Except.ok ((fit (initState (1/10)) [[(0 : ℚ)]]).O.getD
          ((-1) + (((fit (initState (1/10)) [[(0 : ℚ)]]).O.length : ℕ) : ℤ)).toNat [],
        colQuantile (fit (initState (1/10)) [[(0 : ℚ)]]).O
          ((none : Option (ℝ × ℝ)).getD
            (1 - (((fit (initState (1/10)) [[(0 : ℚ)]]).contamination : ℚ) : ℝ),
              99 / 100)).1,
        colQuantile (fit (initState (1/10)) [[(0 : ℚ)]]).O
          ((none : Option (ℝ × ℝ)).getD
            (1 - (((fit (initState (1/10)) [[(0 : ℚ)]]).contamination : ℚ) : ℝ),
              99 / 100)).2) := by
  have hlen : (fit (initState (1/10)) [[(0 : ℚ)]]).O.length = 2 := rfl
  have hlab : (fit (initState (1/10)) [[(0 : ℚ)]]).labels.length = 1 := rfl
  refine ⟨by decide, by rw [hlen]; decide, by rw [hlab]; decide, ?_⟩
  exact (explain_outlier_range (fit (initState (1/10)) [[(0 : ℚ)]]) (-1) none).2
    (by decide) (by rw [hlen]; decide) (by rw [hlab]; decide)

/-- Counterexample to C8 as stated: after fitting `[[0]]` the stored `O`
has 2 rows, the index `-1` is outside `[0, 2)`, yet `explain_outlier(-1)`
succeeds instead of raising IndexOutOfRangeError — Python indexing accepts
it in both the `O` rows (`iloc`, 2 rows) and the `labels_` array
(1 entry). -/
theorem explain_negative_index_no_error :
    (fit (initState (1/10)) [[(0 : ℚ)]]).O.length = 2 ∧
    (-1 : ℤ) < 0 ∧
    (explainOutlier (fit (initState (1/10)) [[(0 : ℚ)]]) (-1) none).isOk = true := by
  refine ⟨rfl, by decide, ?_⟩
  have hc1 : ¬((-1 : ℤ) < -(((fit (initState (1/10)) [[(0 : ℚ)]]).O.length : ℕ) : ℤ) ∨
      (((fit (initState (1/10)) [[(0 : ℚ)]]).O.length : ℕ) : ℤ) ≤ -1) := by
    rw [show (fit (initState (1/10)) [[(0 : ℚ)]]).O.length = 2 from rfl]
    decide
  have hc2 : ¬((-1 : ℤ) <
      -(((fit (initState (1/10)) [[(0 : ℚ)]]).labels.length : ℕ) : ℤ) ∨
      (((fit (initState (1/10)) [[(0 : ℚ)]]).labels.length : ℕ) : ℤ) ≤ -1) := by
    rw [show (fit (initState (1/10)) [[(0 : ℚ)]]).labels.length = 1 from rfl]
    decide
  unfold explainOutlier
  rw [if_neg hc1, if_neg hc2]
  rfl

/-- Counterexample to C9 as stated: after `fit` on the 1-row table `[[0]]`
the stored `O` has 2 rows, so index 1 lies in `[0, 2n)`, yet
`explain_outlier(1)` raises IndexOutOfRangeError — the title's
`labels_[1]` lookup is out of range, `labels_` having a single entry. -/
theorem explain_duplicated_row_index_errors :
    (fit (initState (1/10)) [[(0 : ℚ)]]).O.length = 2 ∧
    (fit (initState (1/10)) [[(0 : ℚ)]]).labels.length = 1 ∧
    (0 : ℤ) ≤ 1 ∧ (1 : ℤ) < 2 ∧
    explainOutlier (fit (initState (1/10)) [[(0 : ℚ)]]) 1 none =
      Except.error ExplainErr.indexOutOfRange := by
  refine ⟨rfl, rfl, by decide, by decide, ?_⟩
  have hc1 : ¬((1 : ℤ) < -(((fit (initState (1/10)) [[(0 : ℚ)]]).O.length : ℕ) : ℤ) ∨
      (((fit (initState (1/10)) [[(0 : ℚ)]]).O.length : ℕ) : ℤ) ≤ 1) := by
    rw [show (fit (initState (1/10)) [[(0 : ℚ)]]).O.length = 2 from rfl]
    decide
  have hc2 : ((1 : ℤ) <
      -(((fit (initState (1/10)) [[(0 : ℚ)]]).labels.length : ℕ) : ℤ) ∨
      (((fit (initState (1/10)) [[(0 : ℚ)]]).labels.length : ℕ) : ℤ) ≤ 1) := by
    rw [show (fit (initState (1/10)) [[(0 : ℚ)]]).labels.length = 1 from rfl]
    decide
  unfold explainOutlier
  rw [if_neg hc1, if_pos hc2]

end COPOD
